import Mathlib

/-!
Verification of the convex-mq lease-based message queue.

The definitions below are a shallow embedding of the Convex component
implementation (`convex/lib.ts`, scheduled callback in
`src/component/lib.ts`) and, where a claim concerns it, of the
library-mode implementation (`src/client/table.ts`).

Modelling decisions:
* Rows live in a list ordered by insertion time (`_creationTime`); the
  `by_status` index scan with `eq("status", "pending")` ordered ascending
  is the filter of that list by pending status.  `db.patch` updates a row
  in place (creation time unchanged); `db.delete` removes it.
* Message ids are naturals drawn from a counter (`nextId`), standing for
  Convex document ids.  The `normalizeId`-returns-null path and the
  `db.get`-returns-null path both mean "the id does not resolve to an
  existing row" and collapse to `findRow = none`.
* `generateClaimId` produces a fresh random 16-character token; it is
  modelled by the counter `nextClaim`, a collision-free abstraction of
  fresh random token generation.
* `ctx.scheduler.runAfter(delay, reclaimStale, args)` is modelled by
  appending `(delay, messageId, claimId)` to a schedule log `sched`.
* Mutations return their result paired with the successor state; thrown
  errors are `Except.error` with the error taxonomy of the spec.
-/

namespace ConvexMQ

/-- Stored message status; terminal states are represented by deletion. -/
inductive Status where
  | pending
  | claimed
  deriving DecidableEq, Repr

/-- One row of the `messages` table (schema in `src/component/schema.ts`). -/
structure Message (α : Type) where
  id : Nat
  payload : α
  status : Status
  attempts : Nat
  maxAttempts : Nat
  visibilityTimeoutMs : Nat
  claimId : Option Nat
  deriving DecidableEq, Repr

/-- Whole-queue state: rows in insertion order, id and claim-token
counters, and the log of scheduled `reclaimStale` callbacks as
`(delayMs, messageId, claimId)` triples. -/
structure QState (α : Type) where
  rows : List (Message α)
  nextId : Nat
  nextClaim : Nat
  sched : List (Nat × Nat × Nat)
  deriving DecidableEq, Repr

/-- The empty queue. -/
def initState (α : Type) : QState α := ⟨[], 0, 0, []⟩

/-- Error taxonomy of ack/nack (spec section 7): the three thrown errors
of the implementation. -/
inductive MQError where
  | NotFound
  | InvalidState
  | LeaseExpired
  deriving DecidableEq, Repr

/-- Result row of `claim` / `claimByIds`. -/
structure ClaimedMsg (α : Type) where
  id : Nat
  claimId : Nat
  payload : α
  attempts : Nat
  deriving DecidableEq, Repr

/-- Result of an exhausting `nack` (the `{exhausted: true, ...}` object). -/
structure Exhausted (α : Type) where
  payload : α
  attempts : Nat
  error : String
  deriving DecidableEq, Repr

/-- Point read by id (`db.get` after `normalizeId`). -/
def findRow (s : QState α) (id : Nat) : Option (Message α) :=
  s.rows.find? (fun m => decide (m.id = id))

/-- Conditional in-place update of the row with the given id (`db.patch`). -/
def patchRows (rows : List (Message α)) (id : Nat) (f : Message α → Message α) :
    List (Message α) :=
  rows.map (fun m => if m.id = id then f m else m)

/-- Removal of the row with the given id (`db.delete`). -/
def deleteRows (rows : List (Message α)) (id : Nat) : List (Message α) :=
  rows.filter (fun m => decide (¬ m.id = id))

/-- The pending rows in insertion order: the `by_status` index scan with
`eq("status", "pending")`, ascending. -/
def pendingRows (s : QState α) : List (Message α) :=
  s.rows.filter (fun m => decide (m.status = Status.pending))

/-- Mutation `publish` (`convex/lib.ts`): insert a pending row with
`attempts = 0` and defaulted limits; returns the new id. -/
def publish (s : QState α) (payload : α) (maxAttempts visibilityTimeoutMs : Option Nat) :
    Nat × QState α :=
  (s.nextId,
   { s with
      rows := s.rows ++
        [⟨s.nextId, payload, Status.pending, 0, maxAttempts.getD 3,
          visibilityTimeoutMs.getD 30000, none⟩],
      nextId := s.nextId + 1 })

/-- Mutation `publishBatch` (`convex/lib.ts`): one insert per entry, in
order, collecting the ids. -/
def publishBatch (s : QState α) (msgs : List (α × Option Nat × Option Nat)) :
    List Nat × QState α :=
  match msgs with
  | [] => ([], s)
  | (p, ma, vt) :: rest =>
      let r := publish s p ma vt
      let rs := publishBatch r.2 rest
      (r.1 :: rs.1, rs.2)

/-- Query `peek` (`convex/lib.ts`): does a first pending row exist. -/
def peek (s : QState α) : Bool :=
  (s.rows.find? (fun m => decide (m.status = Status.pending))).isSome

/-- Body of the claim loop for one snapshot row `m`: generate a fresh
token, patch the row to claimed with `attempts = m.attempts + 1` and the
token, schedule `reclaimStale` after the row's visibility timeout, and
build the returned view. -/
def claimStep (s : QState α) (m : Message α) : ClaimedMsg α × QState α :=
  let tok := s.nextClaim
  let a := m.attempts + 1
  (⟨m.id, tok, m.payload, a⟩,
   { s with
      rows := patchRows s.rows m.id
        (fun r => { r with status := Status.claimed, attempts := a, claimId := some tok }),
      nextClaim := s.nextClaim + 1,
      sched := s.sched ++ [(m.visibilityTimeoutMs, m.id, tok)] })

/-- The `for (const msg of pending)` loop of `claim` over the snapshot
taken before the loop. -/
def claimLoop (s : QState α) : List (Message α) → List (ClaimedMsg α) × QState α
  | [] => ([], s)
  | m :: rest =>
      let r := claimStep s m
      let rs := claimLoop r.2 rest
      (r.1 :: rs.1, rs.2)

/-- Mutation `claim` (`convex/lib.ts`): take up to `limit` (default 1)
pending rows in insertion order and claim each. -/
def claim (s : QState α) (limit : Option Nat) : List (ClaimedMsg α) × QState α :=
  claimLoop s ((pendingRows s).take (limit.getD 1))

/-- The loop of `claimByIds`: skip unresolvable ids and rows not
pending, claim the rest. -/
def claimByIdsLoop (s : QState α) : List Nat → List (ClaimedMsg α) × QState α
  | [] => ([], s)
  | id :: rest =>
      match findRow s id with
      | none => claimByIdsLoop s rest
      | some m =>
          if m.status = Status.pending then
            let r := claimStep s m
            let rs := claimByIdsLoop r.2 rest
            (r.1 :: rs.1, rs.2)
          else claimByIdsLoop s rest

/-- Mutation `claimByIds` (`convex/lib.ts`). -/
def claimByIds (s : QState α) (ids : List Nat) : List (ClaimedMsg α) × QState α :=
  claimByIdsLoop s ids

/-- Mutation `ack` (`convex/lib.ts`): existence, state and token checks
in that order, then delete. -/
def ack (s : QState α) (id tok : Nat) : Except MQError Unit × QState α :=
  match findRow s id with
  | none => (Except.error MQError.NotFound, s)
  | some m =>
      if m.status = Status.claimed then
        if m.claimId = some tok then
          (Except.ok (), { s with rows := deleteRows s.rows id })
        else (Except.error MQError.LeaseExpired, s)
      else (Except.error MQError.InvalidState, s)

/-- Mutation `nack` (`convex/lib.ts`): the same three checks as `ack`;
then either delete and return the exhausted result (when
`attempts >= maxAttempts`, with error defaulted to the implementation's
message) or patch back to pending with the claim token cleared. -/
def nack (s : QState α) (id tok : Nat) (err : Option String) :
    Except MQError (Option (Exhausted α)) × QState α :=
  match findRow s id with
  | none => (Except.error MQError.NotFound, s)
  | some m =>
      if m.status = Status.claimed then
        if m.claimId = some tok then
          if m.maxAttempts ≤ m.attempts then
            (Except.ok (some ⟨m.payload, m.attempts, err.getD "Max attempts exceeded"⟩),
             { s with rows := deleteRows s.rows id })
          else
            (Except.ok none,
             { s with rows := (patchRows s.rows id
                (fun r => { r with status := Status.pending, claimId := none })) })
        else (Except.error MQError.LeaseExpired, s)
      else (Except.error MQError.InvalidState, s)

/-- Internal mutation `reclaimStale` (`src/component/lib.ts`): no-op
unless the row exists, is claimed and still carries the scheduled token;
then patch back to pending with the token cleared.  Never deletes. -/
def reclaimStale (s : QState α) (id tok : Nat) : QState α :=
  match findRow s id with
  | none => s
  | some m =>
      if m.status = Status.claimed then
        if m.claimId = some tok then
          { s with rows := (patchRows s.rows id
              (fun r => { r with status := Status.pending, claimId := none })) }
        else s
      else s

/-- The loop of library-mode `claim` (`src/client/table.ts`): it
re-checks the snapshot row's pending status before claiming. -/
def libClaimLoop (s : QState α) : List (Message α) → List (ClaimedMsg α) × QState α
  | [] => ([], s)
  | m :: rest =>
      if m.status = Status.pending then
        let r := claimStep s m
        let rs := libClaimLoop r.2 rest
        (r.1 :: rs.1, rs.2)
      else libClaimLoop s rest

/-- Library-mode mutation `claim` (`src/client/table.ts`): default limit
5, unfiltered scan of pending rows in insertion order. -/
def libClaim (s : QState α) (limit : Option Nat) : List (ClaimedMsg α) × QState α :=
  libClaimLoop s ((pendingRows s).take (limit.getD 5))

/-- One caller-visible protocol operation, for reachability statements. -/
inductive Op (α : Type) where
  | publish (p : α) (ma vt : Option Nat)
  | publishBatch (msgs : List (α × Option Nat × Option Nat))
  | claim (limit : Option Nat)
  | claimByIds (ids : List Nat)
  | ack (id tok : Nat)
  | nack (id tok : Nat) (err : Option String)
  | reclaimStale (id tok : Nat)

/-- State transition of one operation (results discarded).  The
scheduler may fire `reclaimStale` with any arguments, a superset of the
behaviours of the real scheduler. -/
def step (s : QState α) : Op α → QState α
  | Op.publish p ma vt => (publish s p ma vt).2
  | Op.publishBatch msgs => (publishBatch s msgs).2
  | Op.claim limit => (claim s limit).2
  | Op.claimByIds ids => (claimByIds s ids).2
  | Op.ack id tok => (ack s id tok).2
  | Op.nack id tok err => (nack s id tok err).2
  | Op.reclaimStale id tok => reclaimStale s id tok

/-- Execution of a sequence of operations. -/
def run (s : QState α) (ops : List (Op α)) : QState α := ops.foldl step s

/-- Predicate: the lease token `tok` has been superseded for message
`id` — it was issued earlier (so it lies below the freshness counter)
and no row for `id` carries it any more.  This holds from the moment a
message leaves the claimed state under which `tok` was issued. -/
def SupersededFor (s : QState α) (id tok : Nat) : Prop :=
  tok < s.nextClaim ∧ ∀ m ∈ s.rows, m.id = id → m.claimId ≠ some tok

/-- Rewriting of every row's `maxAttempts` through `f`, used to express
that an operation never reads that field. -/
def mapMaxAttempts (s : QState α) (f : Nat → Nat) : QState α :=
  { s with rows := s.rows.map (fun m => { m with maxAttempts := f m.maxAttempts }) }

/-- Convex mutations run the handler's awaited store operations as the
spec's storage collaborator executes them: each insert is its own atomic
unit.  `publishBatchFaults` runs the `publishBatch` loop against a store
whose insert at absolute position `i` succeeds iff `ok i`; a fault stops
the loop (the thrown store error) and the code performs no compensation
of the inserts already done. -/
def publishBatchFaults (s : QState α) (msgs : List (α × Option Nat × Option Nat))
    (ok : Nat → Bool) (i : Nat) : Except Unit (List Nat) × QState α :=
  match msgs with
  | [] => (Except.ok [], s)
  | (p, ma, vt) :: rest =>
      if ok i then
        match publishBatchFaults (publish s p ma vt).2 rest ok (i + 1) with
        | (Except.ok ids, s2) => (Except.ok ((publish s p ma vt).1 :: ids), s2)
        | (Except.error e, s2) => (Except.error e, s2)
      else (Except.error (), s)

/-- Observable action of the reactive consumption engine (`consume` in
`src/client/index.ts`): a handler invocation, an `ack` mutation call or
a `nack` mutation call. -/
inductive CEvent (α : Type) where
  | handlerCall (msgs : List (ClaimedMsg α))
  | ackCall (id tok : Nat)
  | nackCall (id tok : Nat) (err : String)
  deriving DecidableEq, Repr

/-- Per-message retry of the batch-failure path of `consume`: invoke the
handler on the single message; ack it on success, nack it with the
failure's description on failure.  The handler is modelled as a
deterministic function into `Except`, its error value the description
string extracted from the thrown error. -/
def retryOne (h : List (ClaimedMsg α) → Except String Unit) (m : ClaimedMsg α) :
    List (CEvent α) :=
  match h [m] with
  | Except.ok _ => [CEvent.handlerCall [m], CEvent.ackCall m.id m.claimId]
  | Except.error e => [CEvent.handlerCall [m], CEvent.nackCall m.id m.claimId e]

/-- The batch-handling core of `consume` (`src/client/index.ts`), as the
trace of engine actions on one claimed batch: invoke the handler on the
whole batch; on success ack every message; on failure fall back to
`retryOne` for each message of the batch in order. -/
def handleBatch (h : List (ClaimedMsg α) → Except String Unit)
    (batch : List (ClaimedMsg α)) : List (CEvent α) :=
  match h batch with
  | Except.ok _ =>
      CEvent.handlerCall batch :: batch.map (fun m => CEvent.ackCall m.id m.claimId)
  | Except.error _ =>
      CEvent.handlerCall batch :: batch.flatMap (retryOne h)

/-- Concrete trace: one message with payload 42 and `maxAttempts = 3`. -/
def trace1 : QState Nat := (publish (initState Nat) 42 (some 3) none).2

/-- Concrete trace: first claim (token 0, attempts 1). -/
def trace2 : QState Nat := (claim trace1 (some 1)).2

/-- Concrete trace: first nack returns the message to pending. -/
def trace3 : QState Nat := (nack trace2 0 0 none).2

/-- Concrete trace: second claim (token 1, attempts 2). -/
def trace4 : QState Nat := (claim trace3 (some 1)).2

/-- Concrete trace: second nack returns the message to pending. -/
def trace5 : QState Nat := (nack trace4 0 1 none).2

/-- Concrete trace: third claim (token 2, attempts 3). -/
def trace6 : QState Nat := (claim trace5 (some 1)).2

/-- Concrete trace: third nack exhausts and deletes the message. -/
def trace7 : QState Nat := (nack trace6 0 2 none).2

/-- Concrete trace: three messages published in order A = 10, B = 20,
C = 30 into an empty queue. -/
def traceABC : QState Nat :=
  (publishBatch (initState Nat) [(10, none, none), (20, none, none), (30, none, none)]).2

/-- Concrete batch for exercising the consumption engine: two claimed
messages with distinct ids and tokens. -/
def demoBatch : List (ClaimedMsg Nat) := [⟨0, 0, 10, 1⟩, ⟨1, 1, 20, 1⟩]

/-- Concrete handler for exercising the consumption engine: fails on
any invocation containing message id 1, succeeds otherwise. -/
def demoHandler (ms : List (ClaimedMsg Nat)) : Except String Unit :=
  if ms.any (fun m => decide (m.id = 1)) then Except.error "boom" else Except.ok ()

/-! Helper lemmas about point reads against patched, deleted and
duplicate-free row lists. -/

theorem find?_patchRows (rows : List (Message α)) (id x : Nat)
    (f : Message α → Message α) (hf : ∀ r, (f r).id = r.id) :
    (patchRows rows id f).find? (fun m => decide (m.id = x)) =
      Option.map (fun m => if m.id = id then f m else m)
        (rows.find? (fun m => decide (m.id = x))) := by
  unfold patchRows
  rw [List.find?_map]
  have hcomp : ((fun m => decide (m.id = x)) ∘ fun m : Message α =>
      if m.id = id then f m else m) = (fun m : Message α => decide (m.id = x)) := by
    funext m
    by_cases h : m.id = id <;> simp [h, hf m]
  rw [hcomp]

theorem find?_patchRows_ne (rows : List (Message α)) (id x : Nat)
    (f : Message α → Message α) (hf : ∀ r, (f r).id = r.id) (hx : x ≠ id) :
    (patchRows rows id f).find? (fun m => decide (m.id = x)) =
      rows.find? (fun m => decide (m.id = x)) := by
  rw [find?_patchRows rows id x f hf]
  cases h : rows.find? (fun m => decide (m.id = x)) with
  | none => rfl
  | some m =>
      have hm : m.id = x := by simpa using List.find?_some h
      simp [hm, hx]

theorem find?_patchRows_self (rows : List (Message α)) (id : Nat)
    (f : Message α → Message α) (hf : ∀ r, (f r).id = r.id) (m : Message α)
    (h : rows.find? (fun r => decide (r.id = id)) = some m) :
    (patchRows rows id f).find? (fun r => decide (r.id = id)) = some (f m) := by
  rw [find?_patchRows rows id id f hf, h]
  have hm : m.id = id := by simpa using List.find?_some h
  simp [hm]

theorem find?_filter_of_imp (l : List (Message α)) (p q : Message α → Bool)
    (h : ∀ m, p m = true → q m = true) :
    (l.filter q).find? p = l.find? p := by
  induction l with
  | nil => rfl
  | cons a t ih =>
      by_cases hq : q a = true
      · rw [List.filter_cons_of_pos hq]
        by_cases hp : p a = true
        · rw [List.find?_cons_of_pos _ hp, List.find?_cons_of_pos _ hp]
        · rw [List.find?_cons_of_neg _ hp, List.find?_cons_of_neg _ hp]
          exact ih
      · rw [List.filter_cons_of_neg hq]
        rw [List.find?_cons_of_neg _ (fun hp => hq (h a hp))]
        exact ih

theorem find?_deleteRows_ne (rows : List (Message α)) (id x : Nat) (hx : x ≠ id) :
    (deleteRows rows id).find? (fun m => decide (m.id = x)) =
      rows.find? (fun m => decide (m.id = x)) := by
  unfold deleteRows
  exact find?_filter_of_imp rows _ _ (by
    intro m hp
    have hm : m.id = x := by simpa using hp
    simp [hm, hx])

theorem find?_deleteRows_self (rows : List (Message α)) (id : Nat) :
    (deleteRows rows id).find? (fun m => decide (m.id = id)) = none := by
  rw [List.find?_eq_none]
  intro m hm
  have := (List.mem_filter.mp hm).2
  simp only [decide_eq_true_eq] at this ⊢
  exact this

theorem find?_eq_of_nodup_mem (rows : List (Message α))
    (hnd : (rows.map Message.id).Nodup) (m : Message α) (hm : m ∈ rows) :
    rows.find? (fun r => decide (r.id = m.id)) = some m := by
  induction rows with
  | nil => cases hm
  | cons a t ih =>
      rw [List.map_cons, List.nodup_cons] at hnd
      rcases List.mem_cons.mp hm with h | h
      · subst h
        exact List.find?_cons_of_pos _ (by simp)
      · have ha : ¬ a.id = m.id := by
          intro he
          exact hnd.1 (he ▸ List.mem_map.mpr ⟨m, h, rfl⟩)
        rw [List.find?_cons_of_neg _ (by simpa using ha)]
        exact ih hnd.2 h

theorem mem_id_inj_of_nodup (rows : List (Message α))
    (hnd : (rows.map Message.id).Nodup) {a b : Message α}
    (ha : a ∈ rows) (hb : b ∈ rows) (h : a.id = b.id) : a = b :=
  List.inj_on_of_nodup_map hnd ha hb h

theorem mem_patchRows (rows : List (Message α)) (id : Nat)
    (f : Message α → Message α) {m : Message α} (h : m ∈ patchRows rows id f) :
    m ∈ rows ∨ ∃ r ∈ rows, m = f r := by
  rcases List.mem_map.mp h with ⟨r, hr, he⟩
  by_cases hc : r.id = id
  · right; exact ⟨r, hr, by rw [← he, if_pos hc]⟩
  · left
    rw [if_neg hc] at he
    exact he ▸ hr

theorem mem_of_mem_deleteRows (rows : List (Message α)) (id : Nat)
    {m : Message α} (h : m ∈ deleteRows rows id) : m ∈ rows :=
  (List.mem_filter.mp h).1

theorem patchRows_map_id (rows : List (Message α)) (id : Nat)
    (f : Message α → Message α) (hf : ∀ r, (f r).id = r.id) :
    (patchRows rows id f).map Message.id = rows.map Message.id := by
  unfold patchRows
  rw [List.map_map]
  exact List.map_congr_left (by
    intro m _
    by_cases h : m.id = id <;> simp [h, hf m])

/-! Helper lemmas about the claim loop. -/

theorem claimStep_id_pres (s : QState α) (m : Message α) :
    ∀ r : Message α,
      ({ r with status := Status.claimed, attempts := m.attempts + 1, claimId := some s.nextClaim } : Message α).id = r.id :=
  fun _ => rfl

theorem claimLoop_cons (s : QState α) (m : Message α) (rest : List (Message α)) :
    claimLoop s (m :: rest) =
      ((claimStep s m).1 :: (claimLoop (claimStep s m).2 rest).1,
       (claimLoop (claimStep s m).2 rest).2) := rfl

theorem claimLoop_fst_map_id (l : List (Message α)) :
    ∀ s : QState α, ((claimLoop s l).1).map ClaimedMsg.id = l.map Message.id := by
  induction l with
  | nil => intro s; rfl
  | cons m rest ih =>
      intro s
      rw [claimLoop_cons, List.map_cons, List.map_cons, ih]
      rfl

theorem claimLoop_length (l : List (Message α)) :
    ∀ s : QState α, ((claimLoop s l).1).length = l.length := by
  induction l with
  | nil => intro s; rfl
  | cons m rest ih =>
      intro s
      rw [claimLoop_cons]
      simp [ih]

theorem claimLoop_nextClaim (l : List (Message α)) :
    ∀ s : QState α, (claimLoop s l).2.nextClaim = s.nextClaim + l.length := by
  induction l with
  | nil => intro s; rfl
  | cons m rest ih =>
      intro s
      rw [claimLoop_cons]
      show (claimLoop (claimStep s m).2 rest).2.nextClaim = _
      rw [ih]
      show s.nextClaim + 1 + rest.length = s.nextClaim + (rest.length + 1)
      omega

theorem claimLoop_rows_map_id (l : List (Message α)) :
    ∀ s : QState α, (claimLoop s l).2.rows.map Message.id = s.rows.map Message.id := by
  induction l with
  | nil => intro s; rfl
  | cons m rest ih =>
      intro s
      rw [claimLoop_cons]
      show (claimLoop (claimStep s m).2 rest).2.rows.map Message.id = _
      rw [ih]
      exact patchRows_map_id s.rows m.id _ (claimStep_id_pres s m)

theorem claimLoop_sched_mono (l : List (Message α)) :
    ∀ s : QState α, ∀ x ∈ s.sched, x ∈ (claimLoop s l).2.sched := by
  induction l with
  | nil => intro s x hx; exact hx
  | cons m rest ih =>
      intro s x hx
      rw [claimLoop_cons]
      exact ih _ x (List.mem_append.mpr (Or.inl hx))

theorem claimLoop_token_lb (l : List (Message α)) :
    ∀ s : QState α, ∀ c ∈ (claimLoop s l).1, s.nextClaim ≤ c.claimId := by
  induction l with
  | nil => intro s c hc; cases hc
  | cons m rest ih =>
      intro s c hc
      rw [claimLoop_cons] at hc
      rcases List.mem_cons.mp hc with h | h
      · subst h; exact Nat.le_refl _
      · exact Nat.le_of_succ_le (ih _ c h)

theorem claimLoop_tokens_nodup (l : List (Message α)) :
    ∀ s : QState α, ((claimLoop s l).1.map ClaimedMsg.claimId).Nodup := by
  induction l with
  | nil => intro s; exact List.nodup_nil
  | cons m rest ih =>
      intro s
      rw [claimLoop_cons, List.map_cons, List.nodup_cons]
      refine ⟨?_, ih _⟩
      intro hmem
      rcases List.mem_map.mp hmem with ⟨c, hc, he⟩
      have := claimLoop_token_lb rest (claimStep s m).2 c hc
      have hnc : (claimStep s m).2.nextClaim = s.nextClaim + 1 := rfl
      rw [hnc] at this
      show False
      have he2 : c.claimId = s.nextClaim := he
      omega

theorem findRow_claimLoop_notmem (l : List (Message α)) :
    ∀ s : QState α, ∀ id : Nat, id ∉ l.map Message.id →
      findRow (claimLoop s l).2 id = findRow s id := by
  induction l with
  | nil => intro s id _; rfl
  | cons m rest ih =>
      intro s id hid
      rw [List.map_cons, List.mem_cons] at hid
      push_neg at hid
      rw [claimLoop_cons]
      show findRow (claimLoop (claimStep s m).2 rest).2 id = _
      rw [ih _ id hid.2]
      show ((claimStep s m).2.rows).find? (fun r => decide (r.id = id)) = _
      exact find?_patchRows_ne s.rows m.id id _ (claimStep_id_pres s m) hid.1

theorem claimLoop_mem_spec (l : List (Message α)) :
    ∀ s : QState α, (l.map Message.id).Nodup →
      (∀ m ∈ l, findRow s m.id = some m) →
      ∀ c ∈ (claimLoop s l).1, ∃ m ∈ l,
        c.id = m.id ∧ c.payload = m.payload ∧ c.attempts = m.attempts + 1 ∧
        findRow (claimLoop s l).2 c.id =
          some { m with status := Status.claimed, attempts := m.attempts + 1, claimId := some c.claimId } ∧
        (m.visibilityTimeoutMs, c.id, c.claimId) ∈ (claimLoop s l).2.sched := by
  induction l with
  | nil => intro s _ _ c hc; cases hc
  | cons m rest ih =>
      intro s hnd hfind c hc
      rw [List.map_cons, List.nodup_cons] at hnd
      have hfm : findRow s m.id = some m := hfind m (List.mem_cons_self m rest)
      have hpatched : findRow (claimStep s m).2 m.id =
          some { m with status := Status.claimed, attempts := m.attempts + 1, claimId := some s.nextClaim } := by
        show ((claimStep s m).2.rows).find? (fun r => decide (r.id = m.id)) = _
        exact find?_patchRows_self s.rows m.id _ (claimStep_id_pres s m) m hfm
      have hrest : ∀ r ∈ rest, findRow (claimStep s m).2 r.id = some r := by
        intro r hr
        have hne : r.id ≠ m.id := by
          intro he
          exact hnd.1 (he ▸ List.mem_map.mpr ⟨r, hr, rfl⟩)
        show ((claimStep s m).2.rows).find? (fun x => decide (x.id = r.id)) = _
        have heq : (claimStep s m).2.rows = patchRows s.rows m.id
            (fun r => { r with status := Status.claimed, attempts := m.attempts + 1, claimId := some s.nextClaim }) := rfl
        rw [heq, find?_patchRows_ne s.rows m.id r.id _ (claimStep_id_pres s m) hne]
        exact hfind r (List.mem_cons_of_mem m hr)
      rw [claimLoop_cons] at hc ⊢
      rcases List.mem_cons.mp hc with h | h
      · subst h
        refine ⟨m, List.mem_cons_self m rest, rfl, rfl, rfl, ?_, ?_⟩
        · show findRow (claimLoop (claimStep s m).2 rest).2 m.id = _
          rw [findRow_claimLoop_notmem rest _ m.id (by
            intro hmem
            rcases List.mem_map.mp hmem with ⟨r, hr, he⟩
            exact hnd.1 (he ▸ List.mem_map.mpr ⟨r, hr, rfl⟩))]
          exact hpatched
        · exact claimLoop_sched_mono rest _ _
            (List.mem_append.mpr (Or.inr (List.mem_singleton.mpr rfl)))
      · rcases ih _ hnd.2 hrest c h with ⟨r, hr, h1, h2, h3, h4, h5⟩
        exact ⟨r, List.mem_cons_of_mem m hr, h1, h2, h3, h4, h5⟩

/-! Further helper lemmas. -/

theorem patchRows_map_proj {β : Type} (rows : List (Message α)) (id : Nat)
    (f : Message α → Message α) (g : Message α → β) (hf : ∀ r, g (f r) = g r) :
    (patchRows rows id f).map g = rows.map g := by
  unfold patchRows
  rw [List.map_map]
  exact List.map_congr_left (by
    intro m _
    by_cases h : m.id = id <;> simp [h, hf m])

theorem findRow_mapMaxAttempts (s : QState α) (f : Nat → Nat) (id : Nat) :
    findRow (mapMaxAttempts s f) id =
      Option.map (fun m => { m with maxAttempts := f m.maxAttempts }) (findRow s id) := by
  show (s.rows.map _).find? _ = _
  rw [List.find?_map]
  rfl

theorem patchRows_toPending_mapMax (rows : List (Message α)) (id : Nat) (f : Nat → Nat) :
    patchRows (rows.map (fun m => { m with maxAttempts := f m.maxAttempts })) id
        (fun r => { r with status := Status.pending, claimId := none }) =
      (patchRows rows id (fun r => { r with status := Status.pending, claimId := none })).map
        (fun m => { m with maxAttempts := f m.maxAttempts }) := by
  unfold patchRows
  rw [List.map_map, List.map_map]
  exact List.map_congr_left (by
    intro m _
    by_cases h : m.id = id <;> simp [Function.comp, h])

/-! Theorems for the frozen claims. -/

/-- C1: for a message row in status claimed whose stored claimId equals
the supplied token, `nack` patches the row to pending with the claimId
cleared and returns null when `attempts < maxAttempts`, and deletes the
row returning the exhausted result (payload, attempts, error) when
`attempts >= maxAttempts`. -/
theorem nack_claimed_behavior (s : QState α) (id tok : Nat) (err : Option String)
    (m : Message α) (hfind : findRow s id = some m)
    (hst : m.status = Status.claimed) (htok : m.claimId = some tok) :
    (m.attempts < m.maxAttempts →
      nack s id tok err = (Except.ok none,
        { s with rows := patchRows s.rows id (fun r => { r with status := Status.pending, claimId := none }) })) ∧
    (m.maxAttempts ≤ m.attempts →
      nack s id tok err = (Except.ok (some ⟨m.payload, m.attempts, err.getD "Max attempts exceeded"⟩),
        { s with rows := deleteRows s.rows id })) := by
  constructor
  · intro hlt
    simp [nack, hfind, hst, htok, Nat.not_le.mpr hlt]
  · intro hge
    simp [nack, hfind, hst, htok, hge]

/-- Witness for C1: a message published with maxAttempts 3, claimed and
nacked twice (each nack returning null), claimed a third time and
nacked, yields the exhausted result with attempts 3 and the original
payload, after which no pending row exists. -/
theorem nack_claimed_behavior_witness :
    (claim trace1 (some 1)).1 = [⟨0, 0, 42, 1⟩] ∧
    (nack trace2 0 0 none).1 = Except.ok none ∧
    (claim trace3 (some 1)).1 = [⟨0, 1, 42, 2⟩] ∧
    (nack trace4 0 1 none).1 = Except.ok none ∧
    (claim trace5 (some 1)).1 = [⟨0, 2, 42, 3⟩] ∧
    nack trace6 0 2 none = (Except.ok (some ⟨42, 3, "Max attempts exceeded"⟩),
      { trace6 with rows := deleteRows trace6.rows 0 }) ∧
    pendingRows trace7 = [] ∧ peek trace7 = false := by
  refine ⟨rfl, rfl, rfl, rfl, rfl, ?_, rfl, rfl⟩
  exact (nack_claimed_behavior trace6 0 2 none ⟨0, 42, Status.claimed, 3, 3, 30000, some 2⟩
    rfl rfl rfl).2 (by decide)

/-- C5: `ack` and `nack` perform the same checks in the same order,
failing without modifying the state: NotFound when the id resolves to no
row, else InvalidState when the row is not claimed, else LeaseExpired
when the token mismatches; and `ack`'s sole success effect is deleting
the row. -/
theorem ack_nack_same_checks (s : QState α) (id tok : Nat) (err : Option String) :
    ((ack s id tok).1 = Except.error MQError.NotFound ↔ findRow s id = none) ∧
    ((ack s id tok).1 = Except.error MQError.InvalidState ↔
      ∃ m, findRow s id = some m ∧ m.status ≠ Status.claimed) ∧
    ((ack s id tok).1 = Except.error MQError.LeaseExpired ↔
      ∃ m, findRow s id = some m ∧ m.status = Status.claimed ∧ m.claimId ≠ some tok) ∧
    (∀ e, (ack s id tok).1 = Except.error e ↔ (nack s id tok err).1 = Except.error e) ∧
    (∀ e, (ack s id tok).1 = Except.error e → (ack s id tok).2 = s ∧ (nack s id tok err).2 = s) ∧
    ((ack s id tok).1 = Except.ok () →
      ack s id tok = (Except.ok (), { s with rows := deleteRows s.rows id })) := by
  cases hfind : findRow s id with
  | none => simp [ack, nack, hfind]
  | some m =>
      by_cases hst : m.status = Status.claimed
      · by_cases htok : m.claimId = some tok
        · by_cases hex : m.maxAttempts ≤ m.attempts <;>
            simp [ack, nack, hfind, hst, htok, hex]
        · simp [ack, nack, hfind, hst, htok]
      · simp [ack, nack, hfind, hst]

/-- Witness for C5: at a state holding one claimed message with token 0,
an ack with the wrong token 7 fails with LeaseExpired and leaves the
state unchanged. -/
theorem ack_nack_same_checks_witness :
    (ack trace2 0 7).1 = Except.error MQError.LeaseExpired ∧
    (ack trace2 0 7).2 = trace2 ∧ (nack trace2 0 7 none).2 = trace2 := by
  have h := ack_nack_same_checks trace2 0 7 none
  have hle : (ack trace2 0 7).1 = Except.error MQError.LeaseExpired :=
    h.2.2.1.mpr ⟨⟨0, 42, Status.claimed, 1, 3, 30000, some 0⟩, rfl, rfl, by decide⟩
  exact ⟨hle, (h.2.2.2.2.1 MQError.LeaseExpired hle).1, (h.2.2.2.2.1 MQError.LeaseExpired hle).2⟩

/-- C3: `reclaimStale` is a no-op when the row is absent, not claimed,
or carries a different token; otherwise it patches the row to pending
with the claimId cleared.  It never deletes a row, leaves every row's
attempts unchanged, and its behaviour is independent of the rows'
maxAttempts values. -/
theorem reclaimStale_spec (s : QState α) (id tok : Nat) :
    (∀ m, findRow s id = some m → m.status = Status.claimed → m.claimId = some tok →
      reclaimStale s id tok = { s with rows := patchRows s.rows id (fun r => { r with status := Status.pending, claimId := none }) }) ∧
    ((findRow s id = none ∨ ∃ m, findRow s id = some m ∧ (m.status ≠ Status.claimed ∨ m.claimId ≠ some tok)) →
      reclaimStale s id tok = s) ∧
    ((reclaimStale s id tok).rows.map Message.id = s.rows.map Message.id) ∧
    ((reclaimStale s id tok).rows.map Message.attempts = s.rows.map Message.attempts) ∧
    ((reclaimStale s id tok).nextId = s.nextId ∧ (reclaimStale s id tok).nextClaim = s.nextClaim ∧
      (reclaimStale s id tok).sched = s.sched) ∧
    (∀ f : Nat → Nat, reclaimStale (mapMaxAttempts s f) id tok = mapMaxAttempts (reclaimStale s id tok) f) := by
  have hbody : ∀ t : QState α, reclaimStale t id tok = t ∨
      (∃ m, findRow t id = some m ∧ m.status = Status.claimed ∧ m.claimId = some tok ∧
        reclaimStale t id tok = { t with rows := patchRows t.rows id (fun r => { r with status := Status.pending, claimId := none }) }) := by
    intro t
    unfold reclaimStale
    cases hfind : findRow t id with
    | none => exact Or.inl rfl
    | some m =>
        by_cases hst : m.status = Status.claimed
        · by_cases htok : m.claimId = some tok
          · exact Or.inr ⟨m, rfl, hst, htok, by simp [hst, htok]⟩
          · exact Or.inl (by simp [hst, htok])
        · exact Or.inl (by simp [hst])
  refine ⟨?_, ?_, ?_, ?_, ?_, ?_⟩
  · intro m hfind hst htok
    unfold reclaimStale
    rw [hfind]
    simp [hst, htok]
  · intro h
    unfold reclaimStale
    rcases h with h | ⟨m, hfind, hm⟩
    · rw [h]
    · rw [hfind]
      rcases hm with hm | hm
      · simp [hm]
      · by_cases hst : m.status = Status.claimed
        · simp [hst, hm]
        · simp [hst]
  · rcases hbody s with h | ⟨m, _, _, _, h⟩
    · rw [h]
    · rw [h]
      exact patchRows_map_proj s.rows id _ Message.id (fun r => rfl)
  · rcases hbody s with h | ⟨m, _, _, _, h⟩
    · rw [h]
    · rw [h]
      exact patchRows_map_proj s.rows id _ Message.attempts (fun r => rfl)
  · rcases hbody s with h | ⟨m, _, _, _, h⟩ <;> rw [h] <;> exact ⟨rfl, rfl, rfl⟩
  · intro f
    unfold reclaimStale
    rw [findRow_mapMaxAttempts s f id]
    cases hfind : findRow s id with
    | none => rfl
    | some m =>
        by_cases hst : m.status = Status.claimed
        · by_cases htok : m.claimId = some tok
          · simp [hst, htok, mapMaxAttempts, patchRows_toPending_mapMax]
          · simp [hst, htok, mapMaxAttempts]
        · simp [hst, mapMaxAttempts]

/-- Witness for C3: at a state holding one claimed message with token 0
and attempts 1, `reclaimStale` with the matching token patches it back
to pending; at a state holding one pending message it is a no-op. -/
theorem reclaimStale_spec_witness :
    reclaimStale trace2 0 0 = { trace2 with rows := patchRows trace2.rows 0 (fun r => { r with status := Status.pending, claimId := none }) } ∧
    reclaimStale trace1 0 0 = trace1 := by
  refine ⟨(reclaimStale_spec trace2 0 0).1 ⟨0, 42, Status.claimed, 1, 3, 30000, some 0⟩ rfl rfl rfl, ?_⟩
  exact (reclaimStale_spec trace1 0 0).2.1
    (Or.inr ⟨⟨0, 42, Status.pending, 0, 3, 30000, none⟩, rfl, Or.inl (by decide)⟩)

theorem libClaimLoop_length_of_pending (l : List (Message α)) :
    ∀ s : QState α, (∀ m ∈ l, m.status = Status.pending) →
      ((libClaimLoop s l).1).length = l.length := by
  induction l with
  | nil => intro s _; rfl
  | cons m rest ih =>
      intro s hp
      have hm : m.status = Status.pending := hp m (List.mem_cons_self m rest)
      show (libClaimLoop s (m :: rest)).1.length = rest.length + 1
      unfold libClaimLoop
      rw [if_pos hm]
      simp only [List.length_cons]
      rw [ih _ (fun r hr => hp r (List.mem_cons_of_mem m hr))]

theorem mem_pendingRows_status (s : QState α) {m : Message α}
    (h : m ∈ pendingRows s) : m ∈ s.rows ∧ m.status = Status.pending := by
  have := List.mem_filter.mp h
  exact ⟨this.1, by simpa using this.2⟩

/-- C7: `claim` scans pending messages in insertion order (the ids it
returns are exactly the first `limit` pending rows' ids, in order), and
three messages published in order A = 10, B = 20, C = 30 into an empty
queue are returned by a single claim of 3 in that order. -/
theorem claim_fifo :
    (∀ (α : Type) (s : QState α) (limit : Option Nat),
      ((claim s limit).1).map ClaimedMsg.id =
        ((pendingRows s).take (limit.getD 1)).map Message.id) ∧
    ((claim traceABC (some 3)).1.map (fun c => (c.id, c.payload)) = [(0, 10), (1, 20), (2, 30)]) := by
  refine ⟨?_, by decide⟩
  intro α s limit
  exact claimLoop_fst_map_id _ s

/-- C10: with the limit omitted, the component-mode `claim` defaults to
limit 1 while the library-mode `claim` defaults to limit 5: on any
state, omitting the limit claims exactly `min 1` respectively `min 5` of
the pending messages. -/
theorem claim_default_limits (α : Type) (s : QState α) :
    claim s none = claim s (some 1) ∧
    libClaim s none = libClaim s (some 5) ∧
    (claim s none).1.length = min 1 (pendingRows s).length ∧
    (libClaim s none).1.length = min 5 (pendingRows s).length := by
  refine ⟨rfl, rfl, ?_, ?_⟩
  · show (claimLoop s ((pendingRows s).take 1)).1.length = _
    rw [claimLoop_length]
    exact List.length_take 1 (pendingRows s)
  · show (libClaimLoop s ((pendingRows s).take 5)).1.length = _
    rw [libClaimLoop_length_of_pending _ s (fun m hm =>
      (mem_pendingRows_status s ((List.take_sublist 5 (pendingRows s)).subset hm)).2)]
    exact List.length_take 5 (pendingRows s)

/-- C4: `claim s (some n)` returns at most `n` messages with pairwise
distinct claim tokens; each returned message corresponds to a pending
row of the pre-state whose stored row is patched to claimed with
attempts incremented by 1 and the returned token, with a reclaim
callback scheduled for that row's visibilityTimeoutMs carrying the id
and token; and no returned id remains in the pending set scanned by a
subsequent claim. -/
theorem claim_spec (α : Type) (s : QState α) (n : Nat)
    (hnd : (s.rows.map Message.id).Nodup) :
    (claim s (some n)).1.length ≤ n ∧
    ((claim s (some n)).1.map ClaimedMsg.claimId).Nodup ∧
    (∀ c ∈ (claim s (some n)).1, ∃ m ∈ s.rows,
      m.status = Status.pending ∧ c.id = m.id ∧ c.payload = m.payload ∧
      c.attempts = m.attempts + 1 ∧
      findRow (claim s (some n)).2 c.id =
        some { m with status := Status.claimed, attempts := m.attempts + 1, claimId := some c.claimId } ∧
      (m.visibilityTimeoutMs, c.id, c.claimId) ∈ (claim s (some n)).2.sched) ∧
    (∀ c ∈ (claim s (some n)).1, c.id ∉ (pendingRows (claim s (some n)).2).map Message.id ∧
      ∀ k : Option Nat, c.id ∉ ((claim (claim s (some n)).2 k).1).map ClaimedMsg.id) := by
  have hsubl : ((pendingRows s).take n).Sublist s.rows :=
    (List.take_sublist n (pendingRows s)).trans (List.filter_sublist s.rows)
  have hndl : (((pendingRows s).take n).map Message.id).Nodup :=
    (hsubl.map Message.id).nodup hnd
  have hfind : ∀ m ∈ (pendingRows s).take n, findRow s m.id = some m :=
    fun m hm => find?_eq_of_nodup_mem s.rows hnd m (hsubl.subset hm)
  have hmem := claimLoop_mem_spec ((pendingRows s).take n) s hndl hfind
  have hnd2 : ((claim s (some n)).2.rows.map Message.id).Nodup := by
    have := claimLoop_rows_map_id ((pendingRows s).take n) s
    show (((claimLoop s ((pendingRows s).take n)).2).rows.map Message.id).Nodup
    rw [this]
    exact hnd
  refine ⟨?_, claimLoop_tokens_nodup _ s, ?_, ?_⟩
  · show (claimLoop s ((pendingRows s).take n)).1.length ≤ n
    rw [claimLoop_length]
    have := List.length_take n (pendingRows s)
    omega
  · intro c hc
    rcases hmem c hc with ⟨m, hm, h1, h2, h3, h4, h5⟩
    have hms := mem_pendingRows_status s ((List.take_sublist n (pendingRows s)).subset hm)
    exact ⟨m, hms.1, hms.2, h1, h2, h3, h4, h5⟩
  · intro c hc
    rcases hmem c hc with ⟨m, hm, h1, h2, h3, h4, h5⟩
    have hnotp : c.id ∉ (pendingRows (claim s (some n)).2).map Message.id := by
      intro hmemp
      rcases List.mem_map.mp hmemp with ⟨r, hr, hre⟩
      have hrs := mem_pendingRows_status (claim s (some n)).2 hr
      have hclaimed := List.mem_of_find?_eq_some h4
      have : r = { m with status := Status.claimed, attempts := m.attempts + 1, claimId := some c.claimId } :=
        mem_id_inj_of_nodup _ hnd2 hrs.1 hclaimed (by rw [hre, h1])
      rw [this] at hrs
      exact absurd hrs.2 (by simp)
    refine ⟨hnotp, ?_⟩
    intro k hmemc
    have hmemc2 : c.id ∈ ((pendingRows (claim s (some n)).2).take (k.getD 1)).map Message.id := by
      rw [← claimLoop_fst_map_id]
      exact hmemc
    rcases List.mem_map.mp hmemc2 with ⟨r, hr, hre⟩
    exact hnotp (List.mem_map.mpr ⟨r, (List.take_sublist _ _).subset hr, hre⟩)

/-- Witness for C4: at the three-message state, a claim of 2 returns at
most 2 messages with distinct tokens. -/
theorem claim_spec_witness :
    ((traceABC.rows.map Message.id).Nodup) ∧
    (claim traceABC (some 2)).1.length ≤ 2 ∧
    ((claim traceABC (some 2)).1.map ClaimedMsg.claimId).Nodup := by
  refine ⟨by decide, ?_, ?_⟩
  · exact (claim_spec Nat traceABC 2 (by decide)).1
  · exact (claim_spec Nat traceABC 2 (by decide)).2.1

/-! Case analyses of the successor states of ack, nack and reclaimStale,
and preservation of row predicates along operations. -/

theorem ack_snd_cases (s : QState α) (id tok : Nat) :
    (ack s id tok).2 = s ∨ (ack s id tok).2 = { s with rows := deleteRows s.rows id } := by
  unfold ack
  cases hfind : findRow s id with
  | none => exact Or.inl rfl
  | some m =>
      by_cases hst : m.status = Status.claimed
      · by_cases htok : m.claimId = some tok
        · exact Or.inr (by simp [hst, htok])
        · exact Or.inl (by simp [hst, htok])
      · exact Or.inl (by simp [hst])

theorem nack_snd_cases (s : QState α) (id tok : Nat) (err : Option String) :
    (nack s id tok err).2 = s ∨ (nack s id tok err).2 = { s with rows := deleteRows s.rows id } ∨
      (nack s id tok err).2 = { s with rows := patchRows s.rows id (fun r => { r with status := Status.pending, claimId := none }) } := by
  unfold nack
  cases hfind : findRow s id with
  | none => exact Or.inl rfl
  | some m =>
      by_cases hst : m.status = Status.claimed
      · by_cases htok : m.claimId = some tok
        · by_cases hex : m.maxAttempts ≤ m.attempts
          · exact Or.inr (Or.inl (by simp [hst, htok, hex]))
          · exact Or.inr (Or.inr (by simp [hst, htok, hex]))
        · exact Or.inl (by simp [hst, htok])
      · exact Or.inl (by simp [hst])

theorem reclaimStale_snd_cases (s : QState α) (id tok : Nat) :
    reclaimStale s id tok = s ∨
      reclaimStale s id tok = { s with rows := patchRows s.rows id (fun r => { r with status := Status.pending, claimId := none }) } := by
  unfold reclaimStale
  cases hfind : findRow s id with
  | none => exact Or.inl rfl
  | some m =>
      by_cases hst : m.status = Status.claimed
      · by_cases htok : m.claimId = some tok
        · exact Or.inr (by simp [hst, htok])
        · exact Or.inl (by simp [hst, htok])
      · exact Or.inl (by simp [hst])

theorem rowsOK_claimStep (s : QState α) (m0 : Message α)
    (hok : ∀ m ∈ s.rows, m.claimId.isSome = true ↔ m.status = Status.claimed) :
    ∀ m ∈ (claimStep s m0).2.rows, m.claimId.isSome = true ↔ m.status = Status.claimed := by
  intro m hm
  rcases mem_patchRows s.rows m0.id _ hm with h | ⟨r, _, he⟩
  · exact hok m h
  · subst he
    simp

theorem rowsOK_claimLoop (l : List (Message α)) :
    ∀ s : QState α, (∀ m ∈ s.rows, m.claimId.isSome = true ↔ m.status = Status.claimed) →
      ∀ m ∈ (claimLoop s l).2.rows, m.claimId.isSome = true ↔ m.status = Status.claimed := by
  induction l with
  | nil => intro s hok; exact hok
  | cons m0 rest ih =>
      intro s hok
      rw [claimLoop_cons]
      exact ih _ (rowsOK_claimStep s m0 hok)

theorem claimByIdsLoop_cons_none (s : QState α) (id : Nat) (rest : List Nat)
    (hfind : findRow s id = none) :
    claimByIdsLoop s (id :: rest) = claimByIdsLoop s rest := by
  conv_lhs => unfold claimByIdsLoop
  simp [hfind]

theorem claimByIdsLoop_cons_pending (s : QState α) (id : Nat) (rest : List Nat)
    (m0 : Message α) (hfind : findRow s id = some m0) (hst : m0.status = Status.pending) :
    claimByIdsLoop s (id :: rest) =
      ((claimStep s m0).1 :: (claimByIdsLoop (claimStep s m0).2 rest).1,
       (claimByIdsLoop (claimStep s m0).2 rest).2) := by
  conv_lhs => unfold claimByIdsLoop
  simp [hfind, hst]

theorem claimByIdsLoop_cons_skip (s : QState α) (id : Nat) (rest : List Nat)
    (m0 : Message α) (hfind : findRow s id = some m0) (hst : ¬ m0.status = Status.pending) :
    claimByIdsLoop s (id :: rest) = claimByIdsLoop s rest := by
  conv_lhs => unfold claimByIdsLoop
  simp [hfind, hst]

theorem rowsOK_claimByIdsLoop (ids : List Nat) :
    ∀ s : QState α, (∀ m ∈ s.rows, m.claimId.isSome = true ↔ m.status = Status.claimed) →
      ∀ m ∈ (claimByIdsLoop s ids).2.rows, m.claimId.isSome = true ↔ m.status = Status.claimed := by
  induction ids with
  | nil => intro s hok; exact hok
  | cons id rest ih =>
      intro s hok
      cases hfind : findRow s id with
      | none =>
          rw [claimByIdsLoop_cons_none s id rest hfind]
          exact ih s hok
      | some m0 =>
          by_cases hst : m0.status = Status.pending
          · rw [claimByIdsLoop_cons_pending s id rest m0 hfind hst]
            exact ih _ (rowsOK_claimStep s m0 hok)
          · rw [claimByIdsLoop_cons_skip s id rest m0 hfind hst]
            exact ih s hok

theorem rowsOK_publishBatch (msgs : List (α × Option Nat × Option Nat)) :
    ∀ s : QState α, (∀ m ∈ s.rows, m.claimId.isSome = true ↔ m.status = Status.claimed) →
      ∀ m ∈ (publishBatch s msgs).2.rows, m.claimId.isSome = true ↔ m.status = Status.claimed := by
  induction msgs with
  | nil => intro s hok; exact hok
  | cons x rest ih =>
      intro s hok
      rcases x with ⟨p, ma, vt⟩
      refine ih _ ?_
      intro m hm
      rcases List.mem_append.mp hm with h | h
      · exact hok m h
      · rw [List.mem_singleton.mp h]
        simp

theorem rowsOK_step (s : QState α) (o : Op α)
    (hok : ∀ m ∈ s.rows, m.claimId.isSome = true ↔ m.status = Status.claimed) :
    ∀ m ∈ (step s o).rows, m.claimId.isSome = true ↔ m.status = Status.claimed := by
  cases o with
  | publish p ma vt =>
      intro m hm
      rcases List.mem_append.mp hm with h | h
      · exact hok m h
      · rw [List.mem_singleton.mp h]
        simp
  | publishBatch msgs => exact rowsOK_publishBatch msgs s hok
  | claim limit => exact rowsOK_claimLoop _ s hok
  | claimByIds ids => exact rowsOK_claimByIdsLoop ids s hok
  | ack id tok =>
      intro m hm
      rcases ack_snd_cases s id tok with h | h
      · rw [show step s (Op.ack id tok) = (ack s id tok).2 from rfl, h] at hm
        exact hok m hm
      · rw [show step s (Op.ack id tok) = (ack s id tok).2 from rfl, h] at hm
        exact hok m (mem_of_mem_deleteRows s.rows id hm)
  | nack id tok err =>
      intro m hm
      rw [show step s (Op.nack id tok err) = (nack s id tok err).2 from rfl] at hm
      rcases nack_snd_cases s id tok err with h | h | h
      · rw [h] at hm
        exact hok m hm
      · rw [h] at hm
        exact hok m (mem_of_mem_deleteRows s.rows id hm)
      · rw [h] at hm
        rcases mem_patchRows s.rows id _ hm with hh | ⟨r, _, he⟩
        · exact hok m hh
        · subst he
          simp
  | reclaimStale id tok =>
      intro m hm
      rw [show step s (Op.reclaimStale id tok) = reclaimStale s id tok from rfl] at hm
      rcases reclaimStale_snd_cases s id tok with h | h
      · rw [h] at hm
        exact hok m hm
      · rw [h] at hm
        rcases mem_patchRows s.rows id _ hm with hh | ⟨r, _, he⟩
        · exact hok m hh
        · subst he
          simp

theorem rowsOK_run (ops : List (Op α)) :
    ∀ s : QState α, (∀ m ∈ s.rows, m.claimId.isSome = true ↔ m.status = Status.claimed) →
      ∀ m ∈ (run s ops).rows, m.claimId.isSome = true ↔ m.status = Status.claimed := by
  induction ops with
  | nil => intro s hok; exact hok
  | cons o rest ih =>
      intro s hok
      exact ih (step s o) (rowsOK_step s o hok)

/-- C6: in every state reachable from the empty table by publish,
publishBatch, claim, claimByIds, ack, nack and reclaimStale operations,
a row's claimId is present if and only if its status is claimed. -/
theorem claimId_iff_claimed (α : Type) (ops : List (Op α)) :
    ∀ m ∈ (run (initState α) ops).rows,
      m.claimId.isSome = true ↔ m.status = Status.claimed := by
  exact rowsOK_run ops (initState α) (by intro m hm; cases hm)

/-- Witness for C6: the invariant instantiated at the state reached by a
publish followed by a claim, at its single (claimed) row. -/
theorem claimId_iff_claimed_witness :
    ((⟨0, 42, Status.claimed, 1, 3, 30000, some 0⟩ : Message Nat).claimId.isSome = true ↔
      (⟨0, 42, Status.claimed, 1, 3, 30000, some 0⟩ : Message Nat).status = Status.claimed) :=
  claimId_iff_claimed Nat [Op.publish 42 none none, Op.claim (some 1)]
    ⟨0, 42, Status.claimed, 1, 3, 30000, some 0⟩ (by decide)

/-! Preservation of token supersession along every operation. -/

theorem supersededFor_claimStep (s : QState α) (m0 : Message α) (id tok : Nat)
    (h : SupersededFor s id tok) : SupersededFor (claimStep s m0).2 id tok := by
  refine ⟨Nat.lt_succ_of_lt h.1, ?_⟩
  intro m hm hid
  rcases mem_patchRows s.rows m0.id _ hm with hh | ⟨r, _, he⟩
  · exact h.2 m hh hid
  · subst he
    intro he2
    have hx : s.nextClaim = tok := by simpa using he2
    have h1 := h.1
    omega

theorem supersededFor_claimLoop (l : List (Message α)) (id tok : Nat) :
    ∀ s : QState α, SupersededFor s id tok → SupersededFor (claimLoop s l).2 id tok := by
  induction l with
  | nil => intro s h; exact h
  | cons m0 rest ih =>
      intro s h
      rw [claimLoop_cons]
      exact ih _ (supersededFor_claimStep s m0 id tok h)

theorem supersededFor_claimByIdsLoop (ids : List Nat) (id tok : Nat) :
    ∀ s : QState α, SupersededFor s id tok → SupersededFor (claimByIdsLoop s ids).2 id tok := by
  induction ids with
  | nil => intro s h; exact h
  | cons i rest ih =>
      intro s h
      cases hfind : findRow s i with
      | none =>
          rw [claimByIdsLoop_cons_none s i rest hfind]
          exact ih s h
      | some m0 =>
          by_cases hst : m0.status = Status.pending
          · rw [claimByIdsLoop_cons_pending s i rest m0 hfind hst]
            exact ih _ (supersededFor_claimStep s m0 id tok h)
          · rw [claimByIdsLoop_cons_skip s i rest m0 hfind hst]
            exact ih s h

theorem supersededFor_publish (s : QState α) (p : α) (ma vt : Option Nat) (id tok : Nat)
    (h : SupersededFor s id tok) : SupersededFor (publish s p ma vt).2 id tok := by
  refine ⟨h.1, ?_⟩
  intro m hm hid
  rcases List.mem_append.mp hm with hh | hh
  · exact h.2 m hh hid
  · rw [List.mem_singleton.mp hh]
    intro he
    cases he

theorem supersededFor_publishBatch (msgs : List (α × Option Nat × Option Nat)) (id tok : Nat) :
    ∀ s : QState α, SupersededFor s id tok → SupersededFor (publishBatch s msgs).2 id tok := by
  induction msgs with
  | nil => intro s h; exact h
  | cons x rest ih =>
      intro s h
      rcases x with ⟨p, ma, vt⟩
      exact ih _ (supersededFor_publish s p ma vt id tok h)

theorem supersededFor_toPending_patch (s : QState α) (pid id tok : Nat)
    (h : SupersededFor s id tok) :
    SupersededFor { s with rows := patchRows s.rows pid (fun r => { r with status := Status.pending, claimId := none }) } id tok := by
  refine ⟨h.1, ?_⟩
  intro m hm hid
  rcases mem_patchRows s.rows pid _ hm with hh | ⟨r, _, he⟩
  · exact h.2 m hh hid
  · subst he
    intro he2
    cases he2

theorem supersededFor_step (s : QState α) (o : Op α) (id tok : Nat)
    (h : SupersededFor s id tok) : SupersededFor (step s o) id tok := by
  cases o with
  | publish p ma vt => exact supersededFor_publish s p ma vt id tok h
  | publishBatch msgs => exact supersededFor_publishBatch msgs id tok s h
  | claim limit => exact supersededFor_claimLoop _ id tok s h
  | claimByIds ids => exact supersededFor_claimByIdsLoop ids id tok s h
  | ack i t =>
      show SupersededFor (ack s i t).2 id tok
      rcases ack_snd_cases s i t with hh | hh
      · rw [hh]; exact h
      · rw [hh]
        refine ⟨h.1, ?_⟩
        intro m hm hid
        exact h.2 m (mem_of_mem_deleteRows s.rows i hm) hid
  | nack i t err =>
      show SupersededFor (nack s i t err).2 id tok
      rcases nack_snd_cases s i t err with hh | hh | hh
      · rw [hh]; exact h
      · rw [hh]
        refine ⟨h.1, ?_⟩
        intro m hm hid
        exact h.2 m (mem_of_mem_deleteRows s.rows i hm) hid
      · rw [hh]
        exact supersededFor_toPending_patch s i id tok h
  | reclaimStale i t =>
      show SupersededFor (reclaimStale s i t) id tok
      rcases reclaimStale_snd_cases s i t with hh | hh
      · rw [hh]; exact h
      · rw [hh]
        exact supersededFor_toPending_patch s i id tok h

theorem supersededFor_run (ops : List (Op α)) (id tok : Nat) :
    ∀ s : QState α, SupersededFor s id tok → SupersededFor (run s ops) id tok := by
  induction ops with
  | nil => intro s h; exact h
  | cons o rest ih =>
      intro s h
      exact ih (step s o) (supersededFor_step s o id tok h)

theorem supersededFor_ack_nack (t : QState α) (id tok : Nat) (err : Option String)
    (h : SupersededFor t id tok) :
    ((ack t id tok).1 ≠ Except.ok ()) ∧
    (∀ r, (nack t id tok err).1 ≠ Except.ok r) ∧
    (∀ m, findRow t id = some m → m.status = Status.claimed →
      (ack t id tok).1 = Except.error MQError.LeaseExpired ∧
      (nack t id tok err).1 = Except.error MQError.LeaseExpired) ∧
    (∀ m, findRow t id = some m → m.status ≠ Status.claimed →
      (ack t id tok).1 = Except.error MQError.InvalidState ∧
      (nack t id tok err).1 = Except.error MQError.InvalidState) ∧
    (findRow t id = none →
      (ack t id tok).1 = Except.error MQError.NotFound ∧
      (nack t id tok err).1 = Except.error MQError.NotFound) := by
  cases hfind : findRow t id with
  | none =>
      refine ⟨by simp [ack, hfind], fun r => by simp [nack, hfind], ?_, ?_, ?_⟩
      · intro m hm; cases hm
      · intro m hm; cases hm
      · intro _; exact ⟨by simp [ack, hfind], by simp [nack, hfind]⟩
  | some m =>
      have hmem : m ∈ t.rows := List.mem_of_find?_eq_some hfind
      have hid : m.id = id := by simpa using List.find?_some hfind
      have htok : m.claimId ≠ some tok := h.2 m hmem hid
      by_cases hst : m.status = Status.claimed
      · refine ⟨by simp [ack, hfind, hst, htok], fun r => by simp [nack, hfind, hst, htok], ?_, ?_, ?_⟩
        · intro m2 hm2 _
          exact ⟨by simp [ack, hfind, hst, htok], by simp [nack, hfind, hst, htok]⟩
        · intro m2 hm2 hst2
          have hm2e : m = m2 := Option.some.inj hm2
          rw [← hm2e] at hst2
          exact absurd hst hst2
        · intro hh; cases hh
      · refine ⟨by simp [ack, hfind, hst], fun r => by simp [nack, hfind, hst], ?_, ?_, ?_⟩
        · intro m2 hm2 hst2
          have hm2e : m = m2 := Option.some.inj hm2
          rw [← hm2e] at hst2
          exact absurd hst2 hst
        · intro m2 hm2 _
          exact ⟨by simp [ack, hfind, hst], by simp [nack, hfind, hst]⟩
        · intro hh; cases hh

/-- C2 (amended): once a message's lease token is superseded — it was
issued earlier and no row for the message still carries it — then after
any further sequence of operations an ack or nack with the old token
never succeeds; it fails with LeaseExpired whenever the message is in
the claimed state (in particular when it was reclaimed back into the
claimed state under a fresh token), with InvalidState when the message
exists but is not claimed, and with NotFound when the row is gone. -/
theorem superseded_token_fencing (α : Type) (s : QState α) (id tok : Nat)
    (ops : List (Op α)) (err : Option String) (h : SupersededFor s id tok) :
    ((ack (run s ops) id tok).1 ≠ Except.ok ()) ∧
    (∀ r, (nack (run s ops) id tok err).1 ≠ Except.ok r) ∧
    (∀ m, findRow (run s ops) id = some m → m.status = Status.claimed →
      (ack (run s ops) id tok).1 = Except.error MQError.LeaseExpired ∧
      (nack (run s ops) id tok err).1 = Except.error MQError.LeaseExpired) ∧
    (∀ m, findRow (run s ops) id = some m → m.status ≠ Status.claimed →
      (ack (run s ops) id tok).1 = Except.error MQError.InvalidState ∧
      (nack (run s ops) id tok err).1 = Except.error MQError.InvalidState) ∧
    (findRow (run s ops) id = none →
      (ack (run s ops) id tok).1 = Except.error MQError.NotFound ∧
      (nack (run s ops) id tok err).1 = Except.error MQError.NotFound) :=
  supersededFor_ack_nack (run s ops) id tok err (supersededFor_run ops id tok s h)

/-- Counterexample to C2 as stated: after the first nack returned the
message to pending, its old token 0 is superseded; an ack with that
token then fails with InvalidState, not LeaseExpired as the claim
asserts for every subsequent ack with a superseded token. -/
theorem superseded_token_fencing_counterexample :
    (nack trace2 0 0 none).1 = Except.ok none ∧
    (ack trace3 0 0).1 = Except.error MQError.InvalidState ∧
    MQError.InvalidState ≠ MQError.LeaseExpired :=
  ⟨rfl, rfl, by decide⟩

/-- Witness for C2 (amended): after the nack that superseded token 0,
re-claiming the message issues token 1, and an ack with the old token 0
fails with LeaseExpired. -/
theorem superseded_token_fencing_witness :
    SupersededFor trace3 0 0 ∧
    (ack (run trace3 [Op.claim (some 1)]) 0 0).1 = Except.error MQError.LeaseExpired := by
  have hsup : SupersededFor trace3 0 0 := ⟨by decide, by decide⟩
  refine ⟨hsup, ?_⟩
  exact ((superseded_token_fencing Nat trace3 0 0 [Op.claim (some 1)] none hsup).2.2.1
    ⟨0, 42, Status.claimed, 2, 3, 30000, some 1⟩ rfl rfl).1

/-! Helper lemmas for the consumption-engine event traces. -/

theorem retryOne_ok (h : List (ClaimedMsg α) → Except String Unit) (m : ClaimedMsg α)
    (u : Unit) (hm : h [m] = Except.ok u) :
    retryOne h m = [CEvent.handlerCall [m], CEvent.ackCall m.id m.claimId] := by
  unfold retryOne
  rw [hm]

theorem retryOne_err (h : List (ClaimedMsg α) → Except String Unit) (m : ClaimedMsg α)
    (e : String) (hm : h [m] = Except.error e) :
    retryOne h m = [CEvent.handlerCall [m], CEvent.nackCall m.id m.claimId e] := by
  unfold retryOne
  rw [hm]

theorem ack_mem_retryFlat (h : List (ClaimedMsg α) → Except String Unit)
    (batch : List (ClaimedMsg α)) (i t : Nat) :
    CEvent.ackCall i t ∈ batch.flatMap (retryOne h) ↔
      ∃ r ∈ batch, r.id = i ∧ r.claimId = t ∧ h [r] = Except.ok () := by
  induction batch with
  | nil => simp
  | cons m rest ih =>
      rw [List.flatMap_cons, List.mem_append]
      constructor
      · rintro (hmem | hmem)
        · cases h0 : h [m] with
          | ok u =>
              rw [retryOne_ok h m u h0] at hmem
              rcases List.mem_cons.mp hmem with he | hmem2
              · cases he
              · have he2 := List.mem_singleton.mp hmem2
                injection he2 with hh1 hh2
                cases u
                exact ⟨m, List.mem_cons_self m rest, hh1.symm, hh2.symm, h0⟩
          | error e =>
              rw [retryOne_err h m e h0] at hmem
              rcases List.mem_cons.mp hmem with he | hmem2
              · cases he
              · cases List.mem_singleton.mp hmem2
        · rcases ih.mp hmem with ⟨r, hr, h1, h2, h3⟩
          exact ⟨r, List.mem_cons_of_mem m hr, h1, h2, h3⟩
      · rintro ⟨r, hr, h1, h2, h3⟩
        rcases List.mem_cons.mp hr with he | hr2
        · subst he
          left
          rw [retryOne_ok h r () h3]
          subst h1
          subst h2
          exact List.mem_cons_of_mem _ (List.mem_singleton.mpr rfl)
        · right
          exact ih.mpr ⟨r, hr2, h1, h2, h3⟩

theorem nack_mem_retryFlat (h : List (ClaimedMsg α) → Except String Unit)
    (batch : List (ClaimedMsg α)) (i t : Nat) (e2 : String) :
    CEvent.nackCall i t e2 ∈ batch.flatMap (retryOne h) ↔
      ∃ r ∈ batch, r.id = i ∧ r.claimId = t ∧ h [r] = Except.error e2 := by
  induction batch with
  | nil => simp
  | cons m rest ih =>
      rw [List.flatMap_cons, List.mem_append]
      constructor
      · rintro (hmem | hmem)
        · cases h0 : h [m] with
          | ok u =>
              rw [retryOne_ok h m u h0] at hmem
              rcases List.mem_cons.mp hmem with he | hmem2
              · cases he
              · cases List.mem_singleton.mp hmem2
          | error e =>
              rw [retryOne_err h m e h0] at hmem
              rcases List.mem_cons.mp hmem with he | hmem2
              · cases he
              · have he2 := List.mem_singleton.mp hmem2
                injection he2 with hh1 hh2 hh3
                subst hh1
                subst hh2
                subst hh3
                exact ⟨m, List.mem_cons_self m rest, rfl, rfl, h0⟩
        · rcases ih.mp hmem with ⟨r, hr, h1, h2, h3⟩
          exact ⟨r, List.mem_cons_of_mem m hr, h1, h2, h3⟩
      · rintro ⟨r, hr, h1, h2, h3⟩
        rcases List.mem_cons.mp hr with he | hr2
        · subst he
          left
          rw [retryOne_err h r e2 h3]
          subst h1
          subst h2
          exact List.mem_cons_of_mem _ (List.mem_singleton.mpr rfl)
        · right
          exact ih.mpr ⟨r, hr2, h1, h2, h3⟩

theorem hcall_count_zero [DecidableEq α] (h : List (ClaimedMsg α) → Except String Unit)
    (batch : List (ClaimedMsg α)) (m : ClaimedMsg α) (hm : m ∉ batch) :
    ((batch.flatMap (retryOne h)).filter
      (fun ev => decide (ev = CEvent.handlerCall [m]))).length = 0 := by
  induction batch with
  | nil => rfl
  | cons m0 rest ih =>
      rw [List.mem_cons] at hm
      push_neg at hm
      rw [List.flatMap_cons, List.filter_append, List.length_append]
      have h0len : ((retryOne h m0).filter
          (fun ev => decide (ev = CEvent.handlerCall [m]))).length = 0 := by
        cases h0 : h [m0] with
        | ok u => simp [retryOne_ok h m0 u h0, Ne.symm hm.1]
        | error e => simp [retryOne_err h m0 e h0, Ne.symm hm.1]
      rw [h0len, ih hm.2]

theorem hcall_count_one [DecidableEq α] (h : List (ClaimedMsg α) → Except String Unit)
    (batch : List (ClaimedMsg α)) (m : ClaimedMsg α)
    (hnd : (batch.map ClaimedMsg.id).Nodup) (hm : m ∈ batch) :
    ((batch.flatMap (retryOne h)).filter
      (fun ev => decide (ev = CEvent.handlerCall [m]))).length = 1 := by
  induction batch with
  | nil => cases hm
  | cons m0 rest ih =>
      rw [List.map_cons, List.nodup_cons] at hnd
      rw [List.flatMap_cons, List.filter_append, List.length_append]
      rcases List.mem_cons.mp hm with he | hm2
      · subst he
        have hnotin : m ∉ rest := by
          intro hin
          exact hnd.1 (List.mem_map.mpr ⟨m, hin, rfl⟩)
        have h0len : ((retryOne h m).filter
            (fun ev => decide (ev = CEvent.handlerCall [m]))).length = 1 := by
          cases h0 : h [m] with
          | ok u => simp [retryOne_ok h m u h0]
          | error e => simp [retryOne_err h m e h0]
        rw [h0len, hcall_count_zero h rest m hnotin]
      · have hne : m0 ≠ m := by
          intro he
          exact hnd.1 (he ▸ List.mem_map.mpr ⟨m, hm2, rfl⟩)
        have h0len : ((retryOne h m0).filter
            (fun ev => decide (ev = CEvent.handlerCall [m]))).length = 0 := by
          cases h0 : h [m0] with
          | ok u => simp [retryOne_ok h m0 u h0, hne]
          | error e => simp [retryOne_err h m0 e h0, hne]
        rw [h0len, ih hnd.2 hm2]

theorem ack_after_hcall (h : List (ClaimedMsg α) → Except String Unit) :
    ∀ (batch : List (ClaimedMsg α)) (pre post : List (CEvent α)) (i t : Nat),
      batch.flatMap (retryOne h) = pre ++ CEvent.ackCall i t :: post →
      ∃ m ∈ batch, m.id = i ∧ CEvent.handlerCall [m] ∈ pre := by
  intro batch
  induction batch with
  | nil =>
      intro pre post i t hEq
      rw [List.flatMap_nil] at hEq
      cases pre <;> simp at hEq
  | cons m rest ih =>
      intro pre post i t hEq
      rw [List.flatMap_cons] at hEq
      cases h0 : h [m] with
      | ok u =>
          rw [retryOne_ok h m u h0] at hEq
          match pre, hEq with
          | [], hEq => simp at hEq
          | [a], hEq =>
              simp only [List.cons_append, List.nil_append, List.cons.injEq] at hEq
              refine ⟨m, List.mem_cons_self m rest, ?_, ?_⟩
              · exact (CEvent.ackCall.injEq _ _ _ _ |>.mp hEq.2.1.symm).1.symm
              · rw [← hEq.1]
                exact List.mem_singleton.mpr rfl
          | a :: b :: pre2, hEq =>
              simp only [List.cons_append, List.cons.injEq] at hEq
              rcases ih pre2 post i t hEq.2.2 with ⟨m2, hm2, hid2, hpre2⟩
              exact ⟨m2, List.mem_cons_of_mem m hm2, hid2,
                List.mem_cons_of_mem a (List.mem_cons_of_mem b hpre2)⟩
      | error e =>
          rw [retryOne_err h m e h0] at hEq
          match pre, hEq with
          | [], hEq => simp at hEq
          | [a], hEq => simp at hEq
          | a :: b :: pre2, hEq =>
              simp only [List.cons_append, List.cons.injEq] at hEq
              rcases ih pre2 post i t hEq.2.2 with ⟨m2, hm2, hid2, hpre2⟩
              exact ⟨m2, List.mem_cons_of_mem m hm2, hid2,
                List.mem_cons_of_mem a (List.mem_cons_of_mem b hpre2)⟩

/-- C8: when the batch-level handler invocation fails, the engine acks
nothing before the per-message retry (every ack in the trace is
preceded by that message's individual handler invocation), re-invokes
the handler exactly once per message of the batch individually, acks
with its claimId each message whose individual invocation succeeds, and
nacks with the failure's description each message whose individual
invocation fails. -/
theorem consume_batch_failure_spec (α : Type) [DecidableEq α]
    (h : List (ClaimedMsg α) → Except String Unit) (batch : List (ClaimedMsg α))
    (e : String) (hb : h batch = Except.error e)
    (hnd : (batch.map ClaimedMsg.id).Nodup) :
    ((handleBatch h batch).head? = some (CEvent.handlerCall batch)) ∧
    (∀ m ∈ batch, (((handleBatch h batch).tail).filter
        (fun ev => decide (ev = CEvent.handlerCall [m]))).length = 1) ∧
    (∀ m ∈ batch, (CEvent.ackCall m.id m.claimId ∈ handleBatch h batch ↔
      h [m] = Except.ok ())) ∧
    (∀ m ∈ batch, ∀ e2, (CEvent.nackCall m.id m.claimId e2 ∈ handleBatch h batch ↔
      h [m] = Except.error e2)) ∧
    (∀ pre post i t, handleBatch h batch = pre ++ CEvent.ackCall i t :: post →
      ∃ m ∈ batch, m.id = i ∧ CEvent.handlerCall [m] ∈ pre) := by
  have hEq : handleBatch h batch =
      CEvent.handlerCall batch :: batch.flatMap (retryOne h) := by
    unfold handleBatch
    rw [hb]
  refine ⟨by rw [hEq]; rfl, ?_, ?_, ?_, ?_⟩
  · intro m hm
    rw [hEq]
    exact hcall_count_one h batch m hnd hm
  · intro m hm
    rw [hEq, List.mem_cons]
    constructor
    · rintro (he | hmem)
      · cases he
      · rcases (ack_mem_retryFlat h batch m.id m.claimId).mp hmem with ⟨r, hr, h1, h2, h3⟩
        have : r = m := List.inj_on_of_nodup_map hnd hr hm h1
        rw [← this]
        exact h3
    · intro hok
      exact Or.inr ((ack_mem_retryFlat h batch m.id m.claimId).mpr ⟨m, hm, rfl, rfl, hok⟩)
  · intro m hm e2
    rw [hEq, List.mem_cons]
    constructor
    · rintro (he | hmem)
      · cases he
      · rcases (nack_mem_retryFlat h batch m.id m.claimId e2).mp hmem with ⟨r, hr, h1, h2, h3⟩
        have : r = m := List.inj_on_of_nodup_map hnd hr hm h1
        rw [← this]
        exact h3
    · intro herr
      exact Or.inr ((nack_mem_retryFlat h batch m.id m.claimId e2).mpr ⟨m, hm, rfl, rfl, herr⟩)
  · intro pre post i t hdec
    rw [hEq] at hdec
    match pre, hdec with
    | [], hdec => simp at hdec
    | a :: pre1, hdec =>
        simp only [List.cons_append, List.cons.injEq] at hdec
        rcases ack_after_hcall h batch pre1 post i t hdec.2 with ⟨m2, hm2, hid2, hpre1⟩
        exact ⟨m2, hm2, hid2, List.mem_cons_of_mem a hpre1⟩

/-- Witness for C8: a two-message batch whose handler fails on the
whole batch, succeeds on the first message alone and fails on the
second alone: the first is acked, the second is nacked with the
failure's description. -/
theorem consume_batch_failure_spec_witness :
    demoHandler demoBatch = Except.error "boom" ∧
    (demoBatch.map ClaimedMsg.id).Nodup ∧
    (CEvent.ackCall 0 0 ∈ handleBatch demoHandler demoBatch ↔
      demoHandler [⟨0, 0, 10, 1⟩] = Except.ok ()) ∧
    (CEvent.nackCall 1 1 "boom" ∈ handleBatch demoHandler demoBatch ↔
      demoHandler [⟨1, 1, 20, 1⟩] = Except.error "boom") := by
  have hspec := consume_batch_failure_spec Nat demoHandler demoBatch "boom" rfl (by decide)
  exact ⟨rfl, by decide, hspec.2.2.1 ⟨0, 0, 10, 1⟩ (by decide),
    hspec.2.2.2.1 ⟨1, 1, 20, 1⟩ (by decide) "boom"⟩

/-! Helper lemmas for publishBatch and its behaviour under store faults. -/

theorem publishBatch_ids (msgs : List (α × Option Nat × Option Nat)) :
    ∀ s : QState α, (publishBatch s msgs).1 = List.range' s.nextId msgs.length := by
  induction msgs with
  | nil => intro s; rfl
  | cons x rest ih =>
      intro s
      rcases x with ⟨p, ma, vt⟩
      show (publish s p ma vt).1 :: (publishBatch (publish s p ma vt).2 rest).1 =
        List.range' s.nextId (rest.length + 1)
      rw [List.range'_succ, ih]
      rfl

theorem publishBatch_rows (msgs : List (α × Option Nat × Option Nat)) :
    ∀ s : QState α, ∃ nw, (publishBatch s msgs).2.rows = s.rows ++ nw ∧
      nw.map Message.payload = msgs.map (fun x => x.1) ∧
      ∀ r ∈ nw, r.status = Status.pending ∧ r.attempts = 0 ∧ r.claimId = none := by
  induction msgs with
  | nil =>
      intro s
      exact ⟨[], (List.append_nil s.rows).symm, rfl, fun r hr => absurd hr (List.not_mem_nil r)⟩
  | cons x rest ih =>
      intro s
      rcases x with ⟨p, ma, vt⟩
      rcases ih (publish s p ma vt).2 with ⟨nw, hrows, hpl, hprops⟩
      refine ⟨⟨s.nextId, p, Status.pending, 0, ma.getD 3, vt.getD 30000, none⟩ :: nw, ?_, ?_, ?_⟩
      · show (publishBatch (publish s p ma vt).2 rest).2.rows = _
        rw [hrows]
        show (s.rows ++ [_]) ++ nw = _
        rw [List.append_assoc]
        rfl
      · rw [List.map_cons, hpl]
        rfl
      · intro r hr
        rcases List.mem_cons.mp hr with he | hr2
        · rw [he]
          exact ⟨rfl, rfl, rfl⟩
        · exact hprops r hr2

theorem publishBatchFaults_ok (ok : Nat → Bool) (msgs : List (α × Option Nat × Option Nat)) :
    ∀ (s : QState α) (i : Nat), (∀ j, j < msgs.length → ok (i + j) = true) →
      publishBatchFaults s msgs ok i =
        (Except.ok (publishBatch s msgs).1, (publishBatch s msgs).2) := by
  induction msgs with
  | nil => intro s i _; rfl
  | cons x rest ih =>
      intro s i h
      rcases x with ⟨p, ma, vt⟩
      have h0 : ok i = true := by
        have := h 0 (by simp)
        simpa using this
      have hrest : ∀ j, j < rest.length → ok (i + 1 + j) = true := by
        intro j hj
        have := h (j + 1) (by simp; omega)
        rwa [show i + (j + 1) = i + 1 + j by omega] at this
      show (if ok i then _ else _) = _
      rw [if_pos h0, ih (publish s p ma vt).2 (i + 1) hrest]
      rfl

theorem publishBatchFaults_fail (ok : Nat → Bool) (msgs : List (α × Option Nat × Option Nat)) :
    ∀ (s : QState α) (i k : Nat), (∀ j, j < k → ok (i + j) = true) →
      ok (i + k) = false → k < msgs.length →
      publishBatchFaults s msgs ok i =
        (Except.error (), (publishBatch s (msgs.take k)).2) := by
  induction msgs with
  | nil =>
      intro s i k _ _ hk
      exact absurd hk (by simp)
  | cons x rest ih =>
      intro s i k hpre hfail hk
      rcases x with ⟨p, ma, vt⟩
      cases k with
      | zero =>
          have h0 : ok i = false := by simpa using hfail
          show (if ok i then _ else _) = _
          rw [if_neg (by rw [h0]; exact Bool.false_ne_true)]
          rfl
      | succ k2 =>
          have h0 : ok i = true := by
            have := hpre 0 (by omega)
            simpa using this
          have hrest : ∀ j, j < k2 → ok (i + 1 + j) = true := by
            intro j hj
            have := hpre (j + 1) (by omega)
            rwa [show i + (j + 1) = i + 1 + j by omega] at this
          have hfail2 : ok (i + 1 + k2) = false := by
            rwa [show i + (k2 + 1) = i + 1 + k2 by omega] at hfail
          have hk2 : k2 < rest.length := by
            simp only [List.length_cons] at hk
            omega
          show (if ok i then _ else _) = _
          rw [if_pos h0, ih (publish s p ma vt).2 (i + 1) k2 hrest hfail2 hk2]
          rfl

/-- C9: `publishBatch` performs one insert per payload in sequence and
returns one id per payload in order (the consecutive fresh ids); the
inserted rows are appended pending rows carrying the payloads in order.
Against the storage collaborator of the spec, whose inserts are
independent atomic units, a fault at the k-th insert stops the loop
leaving exactly the first k inserts in place — a partial failure does
not roll back prior inserts, so the batch is not a single transaction. -/
theorem publishBatch_spec (α : Type) (s : QState α)
    (msgs : List (α × Option Nat × Option Nat)) (ok : Nat → Bool) :
    ((publishBatch s msgs).1 = List.range' s.nextId msgs.length) ∧
    (∃ nw, (publishBatch s msgs).2.rows = s.rows ++ nw ∧
      nw.map Message.payload = msgs.map (fun x => x.1) ∧
      ∀ r ∈ nw, r.status = Status.pending ∧ r.attempts = 0 ∧ r.claimId = none) ∧
    ((∀ j, j < msgs.length → ok j = true) →
      publishBatchFaults s msgs ok 0 =
        (Except.ok (publishBatch s msgs).1, (publishBatch s msgs).2)) ∧
    (∀ k, (∀ j, j < k → ok j = true) → ok k = false → k < msgs.length →
      publishBatchFaults s msgs ok 0 =
        (Except.error (), (publishBatch s (msgs.take k)).2)) := by
  refine ⟨publishBatch_ids msgs s, publishBatch_rows msgs s, ?_, ?_⟩
  · intro h
    exact publishBatchFaults_ok ok msgs s 0 (by
      intro j hj
      rw [Nat.zero_add]
      exact h j hj)
  · intro k hpre hfail hk
    exact publishBatchFaults_fail ok msgs s 0 k
      (by intro j hj; rw [Nat.zero_add]; exact hpre j hj)
      (by rwa [Nat.zero_add]) hk

/-- Witness for C9: publishing a batch of three payloads against a
store that faults on the third insert leaves exactly the first two
messages inserted. -/
theorem publishBatch_spec_witness :
    publishBatchFaults (initState Nat)
        [(1, none, none), (2, none, none), (3, none, none)] (fun i => decide (i < 2)) 0 =
      (Except.error (), (publishBatch (initState Nat) [(1, none, none), (2, none, none)]).2) := by
  exact (publishBatch_spec Nat (initState Nat)
      [(1, none, none), (2, none, none), (3, none, none)] (fun i => decide (i < 2))).2.2.2 2
    (fun j hj => decide_eq_true hj) (by decide) (by decide)

end ConvexMQ
